import Mathlib

/-!
Shallow embedding of the uhttp_request crate (src/lib.rs): slice-based
lexers for the HTTP request line and header fields.  Byte buffers are
modelled as List Nat (each element a byte value); Rust slices returned by
the code become sub-lists, and fallible operations return Except Error.
-/

/-- Errors that may occur when processing a request header
(enum Error in the source). -/
inductive Error where
  | Partial
  | Syntax
deriving DecidableEq, Repr

deriving instance DecidableEq for Except

/-- memchr b bytes: index of the first occurrence of byte c, if any
(the memchr crate function used by the source). -/
def memchr (c : Nat) : List Nat → Option Nat
  | [] => none
  | b :: rest => if b = c then some 0 else (memchr c rest).map (fun i => i + 1)

/-- check_crlf: if the slice begins with CRLF return the slice immediately
after; Partial when fewer than 2 bytes are available, Syntax otherwise. -/
def check_crlf (bytes : List Nat) : Except Error (List Nat) :=
  if bytes.length < 2 then .error .Partial
  else if bytes.take 2 = [13, 10] then .ok (bytes.drop 2)
  else .error .Syntax

/-- next_line: split off the chunk up to (not including) the nearest CRLF.
Finds the first carriage return with memchr (Partial when absent), then
requires the remainder to begin with CRLF via check_crlf. -/
def next_line (bytes : List Nat) : Except Error (List Nat × List Nat) :=
  match memchr 13 bytes with
  | none => .error .Partial
  | some idx =>
    match check_crlf (bytes.drop idx) with
    | .ok rest => .ok (bytes.take idx, rest)
    | .error e => .error e

/-- skip_empty_lines: consume CRLFs until the first non-CRLF character.
The source loops on check_crlf: ok advances two bytes, Partial is
propagated, Syntax stops and returns the current slice; the pattern match
below implements exactly that loop (see skip_empty_lines_eq). -/
def skip_empty_lines : List Nat → Except Error (List Nat)
  | 13 :: 10 :: rest => skip_empty_lines rest
  | bytes => if bytes.length < 2 then .error .Partial else .ok bytes

/-- Fuel-indexed version of the skip_empty_lines loop, one unit of fuel per
iteration of the source loop; none means the fuel ran out. -/
def skip_fuel : Nat → List Nat → Option (Except Error (List Nat))
  | 0, _ => none
  | fuel + 1, bytes =>
    match check_crlf bytes with
    | .ok rest => skip_fuel fuel rest
    | .error .Partial => some (.error .Partial)
    | .error .Syntax => some (.ok bytes)

/-- n leading empty lines (n CRLF pairs), used to state reconstruction. -/
def crlfs (n : Nat) : List Nat := (List.replicate n ([13, 10] : List Nat)).flatten

/-- Rust str split with a single space pattern: fields between occurrences
of byte 32, empty fields preserved; always at least one field.
Helper for the head field. -/
def cons_first (b : Nat) : List (List Nat) → List (List Nat)
  | [] => [[b]]
  | f :: fs => (b :: f) :: fs

/-- The split of line by the space character over the bytes of a (UTF-8
valid) line: since the space byte only encodes the space character,
byte-level splitting on 32 agrees with the char-level split the source
performs. -/
def split_sp : List Nat → List (List Nat)
  | [] => [[]]
  | b :: rest => if b = 32 then [] :: split_sp rest else cons_first b (split_sp rest)

/-- Inverse of split_sp: interleave the fields with single spaces. -/
def join_sp : List (List Nat) → List Nat
  | [] => []
  | [f] => f
  | f :: fs => f ++ 32 :: join_sp fs

/-- UTF-8 decoding as performed by std str from_utf8: returns the list of
scalar values, or none on invalid encodings (overlongs, surrogates,
out-of-range, truncation all rejected). -/
def utf8Decode : List Nat → Option (List Nat)
  | [] => some []
  | b0 :: rest =>
    if b0 < 128 then
      (utf8Decode rest).map (fun cs => b0 :: cs)
    else if b0 < 194 then
      none
    else if b0 ≤ 223 then
      match rest with
      | b1 :: rest1 =>
        if 128 ≤ b1 ∧ b1 ≤ 191 then
          (utf8Decode rest1).map (fun cs => ((b0 - 192) * 64 + (b1 - 128)) :: cs)
        else none
      | [] => none
    else if b0 ≤ 239 then
      match rest with
      | b1 :: b2 :: rest2 =>
        if (if b0 = 224 then 160 else 128) ≤ b1 ∧ b1 ≤ (if b0 = 237 then 159 else 191)
            ∧ 128 ≤ b2 ∧ b2 ≤ 191 then
          (utf8Decode rest2).map
            (fun cs => ((b0 - 224) * 4096 + (b1 - 128) * 64 + (b2 - 128)) :: cs)
        else none
      | _ => none
    else if b0 ≤ 244 then
      match rest with
      | b1 :: b2 :: b3 :: rest3 =>
        if (if b0 = 240 then 144 else 128) ≤ b1 ∧ b1 ≤ (if b0 = 244 then 143 else 191)
            ∧ 128 ≤ b2 ∧ b2 ≤ 191 ∧ 128 ≤ b3 ∧ b3 ≤ 191 then
          (utf8Decode rest3).map
            (fun cs => ((b0 - 240) * 262144 + (b1 - 128) * 4096 + (b2 - 128) * 64
              + (b3 - 128)) :: cs)
        else none
      | _ => none
    else none

/-- UTF-8 encoding of one scalar value. -/
def utf8EncodeChar (c : Nat) : List Nat :=
  if c < 128 then [c]
  else if c < 2048 then [192 + c / 64, 128 + c % 64]
  else if c < 65536 then [224 + c / 4096, 128 + (c / 64) % 64, 128 + c % 64]
  else [240 + c / 262144, 128 + (c / 4096) % 64, 128 + (c / 64) % 64, 128 + c % 64]

/-- UTF-8 encoding of a list of scalar values. -/
def utf8Encode (cs : List Nat) : List Nat := (cs.map utf8EncodeChar).flatten

/-- Rust char is_whitespace: the Unicode White_Space property. -/
def isWhitespaceChar (c : Nat) : Bool :=
  decide ((9 ≤ c ∧ c ≤ 13) ∨ c = 32 ∨ c = 133 ∨ c = 160 ∨ c = 5760
    ∨ (8192 ≤ c ∧ c ≤ 8202) ∨ c = 8232 ∨ c = 8233 ∨ c = 8239 ∨ c = 8287 ∨ c = 12288)

/-- Rust str trim on a decoded character list: drop leading and trailing
whitespace characters. -/
def trimChars (cs : List Nat) : List Nat :=
  ((cs.dropWhile isWhitespaceChar).reverse.dropWhile isWhitespaceChar).reverse

/-- A Request-Line: three views into the buffer.  Fields are byte views
(the source holds str views; their UTF-8 validity is established by the
from_utf8 check in RequestLine.new). -/
structure RequestLine where
  method : List Nat
  target : List Nat
  version : List Nat
deriving DecidableEq, Repr

/-- The stage of RequestLine::new after the initial line has been located:
UTF-8 check of the line, then split by spaces into exactly three fields. -/
def request_fields (line rest : List Nat) : Except Error (RequestLine × List Nat) :=
  match utf8Decode line with
  | none => .error .Syntax
  | some _ =>
    match split_sp line with
    | [method, target, version] => .ok (⟨method, target, version⟩, rest)
    | _ => .error .Syntax

/-- RequestLine::new: skip leading empty lines, locate the initial line,
interpret it as UTF-8 and split it by spaces into exactly three fields. -/
def RequestLine.new (buf : List Nat) : Except Error (RequestLine × List Nat) :=
  match skip_empty_lines buf with
  | .error e => .error e
  | .ok start =>
    match next_line start with
    | .error e => .error e
    | .ok (line, rest) => request_fields line rest

/-- An HTTP request header field: trimmed UTF-8 name (as its bytes) and the
raw value bytes. -/
structure Header where
  name : List Nat
  val : List Nat
deriving DecidableEq, Repr

/-- The per-line part of the Headers iterator body: split the located line
at its first colon, decode and trim the name, keep the value verbatim past
the colon. -/
def parse_header (line : List Nat) : Except Error Header :=
  match memchr 58 line with
  | none => .error .Syntax
  | some idx =>
    let name := line.take idx
    let val := line.drop idx
    match utf8Decode name with
    | none => .error .Syntax
    | some cs =>
      let trimmed := utf8Encode (trimChars cs)
      if trimmed = [] then .error .Syntax
      else .ok ⟨trimmed, val.drop 1⟩

/-- Headers iterator state: the remaining unparsed byte slice. -/
def Headers.into_inner (s : List Nat) : List Nat := s

/-- One advance of the Headers iterator: locate the next line (errors leave
the cursor unchanged), advance the cursor past the CRLF, report
end-of-headers on an empty line, otherwise parse the line as a header.
Returns the yielded item together with the new cursor. -/
def Headers.next (s : List Nat) : Option (Except Error Header) × List Nat :=
  match next_line s with
  | .error e => (some (.error e), s)
  | .ok (line, rest) =>
    if line = [] then (none, rest)
    else (some (parse_header line), rest)

/-- Run the Headers iterator until it reports end-of-headers or an error,
collecting the yielded headers and the final cursor; fuel bounds the number
of advances (none when it runs out). -/
def run_headers : Nat → List Nat → Option (Except Error (List Header × List Nat))
  | 0, _ => none
  | fuel + 1, s =>
    match Headers.next s with
    | (none, rest) => some (.ok ([], rest))
    | (some (.error e), _) => some (.error e)
    | (some (.ok h), rest) =>
      match run_headers fuel rest with
      | none => none
      | some (.error e) => some (.error e)
      | some (.ok (hs, fin)) => some (.ok (h :: hs, fin))

/-- ASCII-only whitespace trim, following the words of the specification
(trim surrounding ASCII whitespace); compared against the Unicode trim the
code performs. -/
def isAsciiWs (b : Nat) : Bool := decide ((9 ≤ b ∧ b ≤ 13) ∨ b = 32)

/-- Spec-side ASCII trim of a byte list. -/
def trimAsciiSpec (l : List Nat) : List Nat :=
  ((l.dropWhile isAsciiWs).reverse.dropWhile isAsciiWs).reverse

/-! ## Basic lemmas about memchr -/

theorem memchr_eq_none {c : Nat} {l : List Nat} : memchr c l = none ↔ c ∉ l := by
  induction l with
  | nil => simp [memchr]
  | cons b rest ih =>
    by_cases hb : b = c
    · subst hb
      simp [memchr]
    · simp [memchr, hb, ih, Ne.symm hb]

theorem memchr_append_left {c : Nat} {p : List Nat} {i : Nat}
    (h : memchr c p = some i) (q : List Nat) : memchr c (p ++ q) = some i := by
  induction p generalizing i with
  | nil => simp [memchr] at h
  | cons b rest ih =>
    by_cases hb : b = c
    · simpa [memchr, hb] using h
    · simp only [memchr, if_neg hb, List.cons_append] at h ⊢
      obtain ⟨j, hj, rfl⟩ := Option.map_eq_some'.mp h
      simp [ih hj]

theorem memchr_some {c : Nat} {l : List Nat} {i : Nat} (h : memchr c l = some i) :
    ∃ pre tail, l = pre ++ c :: tail ∧ pre.length = i ∧ c ∉ pre := by
  induction l generalizing i with
  | nil => simp [memchr] at h
  | cons b rest ih =>
    by_cases hb : b = c
    · subst hb
      simp [memchr] at h
      exact ⟨[], rest, by simp, by simp_all, by simp⟩
    · simp only [memchr, if_neg hb] at h
      obtain ⟨j, hj, rfl⟩ := Option.map_eq_some'.mp h
      obtain ⟨pre, tail, rfl, rfl, hpre⟩ := ih hj
      exact ⟨b :: pre, tail, by simp, by simp, by
        simp only [List.mem_cons, not_or]
        exact ⟨Ne.symm hb, hpre⟩⟩

theorem memchr_not_mem_append {c : Nat} {pre : List Nat} (h : c ∉ pre) (post : List Nat) :
    memchr c (pre ++ c :: post) = some pre.length := by
  induction pre with
  | nil => simp [memchr]
  | cons b rest ih =>
    simp only [List.mem_cons, not_or] at h
    have hb : ¬b = c := fun hbc => h.1 hbc.symm
    simp [memchr, hb, ih h.2]

/-! ## Characterizations of check_crlf -/

theorem check_crlf_ok_iff {l r : List Nat} : check_crlf l = .ok r ↔ l = 13 :: 10 :: r := by
  match l with
  | [] => simp [check_crlf]
  | [a] => simp [check_crlf]
  | a :: b :: rest =>
    constructor
    · intro h
      simp only [check_crlf, List.length_cons] at h
      split at h
      · omega
      · split at h
        · rename_i htake
          simp only [List.take_succ_cons, List.take_zero] at htake
          obtain ⟨rfl, rfl⟩ : a = 13 ∧ b = 10 := by
            simpa using htake
          simpa using h
        · exact absurd h (by simp)
    · intro h
      obtain ⟨rfl, rfl, rfl⟩ : a = 13 ∧ b = 10 ∧ rest = r := by
        simpa using h
      simp [check_crlf]

theorem check_crlf_partial_iff {l : List Nat} :
    check_crlf l = .error .Partial ↔ l.length < 2 := by
  match l with
  | [] => simp [check_crlf]
  | [a] => simp [check_crlf]
  | a :: b :: rest =>
    have h2 : ¬(a :: b :: rest).length < 2 := by
      simp only [List.length_cons]
      omega
    simp only [check_crlf, if_neg h2]
    constructor
    · intro h
      split at h <;> exact absurd h (by simp)
    · intro h
      exact absurd h h2

theorem check_crlf_syntax_iff {l : List Nat} :
    check_crlf l = .error .Syntax ↔ 2 ≤ l.length ∧ l.take 2 ≠ [13, 10] := by
  match l with
  | [] => simp [check_crlf]
  | [a] => simp [check_crlf]
  | a :: b :: rest =>
    have h2 : ¬(a :: b :: rest).length < 2 := by
      simp only [List.length_cons]
      omega
    have hlen : 2 ≤ (a :: b :: rest).length := by
      simp only [List.length_cons]
      omega
    simp only [check_crlf, if_neg h2]
    constructor
    · intro h
      split at h
      · exact absurd h (by simp)
      · rename_i htake
        exact ⟨hlen, htake⟩
    · rintro ⟨-, htake⟩
      rw [if_neg htake]

/-! ## Characterization of next_line -/

theorem next_line_ok_iff {bytes line rest : List Nat} :
    next_line bytes = .ok (line, rest) ↔ 13 ∉ line ∧ bytes = line ++ 13 :: 10 :: rest := by
  constructor
  · intro h
    unfold next_line at h
    split at h
    · exact absurd h (by simp)
    · rename_i idx hidx
      split at h
      · rename_i r hr
        obtain ⟨pre, tail, rfl, rfl, hpre⟩ := memchr_some hidx
        rw [List.drop_left] at hr
        have htail : (13 : Nat) :: tail = 13 :: 10 :: r := check_crlf_ok_iff.mp hr
        obtain rfl : tail = 10 :: r := by
          simpa using htail
        rw [List.take_left] at h
        obtain ⟨rfl, rfl⟩ : pre = line ∧ r = rest := by
          simpa using h
        exact ⟨hpre, rfl⟩
      · exact absurd h (by simp)
  · rintro ⟨hline, rfl⟩
    have hm : memchr 13 (line ++ 13 :: 10 :: rest) = some line.length :=
      memchr_not_mem_append hline _
    have hd : (line ++ 13 :: 10 :: rest).drop line.length = 13 :: 10 :: rest :=
      List.drop_left _ _
    have ht : (line ++ 13 :: 10 :: rest).take line.length = line :=
      List.take_left _ _
    simp [next_line, hm, hd, ht, check_crlf_ok_iff.mpr rfl]

/-! ## skip_empty_lines: loop equation, decomposition, extension -/

theorem skip_empty_lines_eq (bytes : List Nat) :
    skip_empty_lines bytes =
      match check_crlf bytes with
      | .ok rest => skip_empty_lines rest
      | .error .Partial => .error .Partial
      | .error .Syntax => .ok bytes := by
  match bytes with
  | [] => simp [skip_empty_lines, check_crlf]
  | [a] => simp [skip_empty_lines, check_crlf]
  | a :: b :: rest =>
    by_cases hab : a = 13 ∧ b = 10
    · obtain ⟨rfl, rfl⟩ := hab
      have hok : check_crlf (13 :: 10 :: rest) = .ok rest := check_crlf_ok_iff.mpr rfl
      rw [hok]
      rfl
    · have hsyn : check_crlf (a :: b :: rest) = .error .Syntax := by
        rw [check_crlf_syntax_iff]
        refine ⟨by simp only [List.length_cons]; omega, ?_⟩
        intro htake
        apply hab
        constructor
        · simpa using congrArg (fun l => l.headI) htake
        · simpa using congrArg (fun l => l.tail.headI) htake
      rw [hsyn]
      rw [skip_empty_lines.eq_def]
      split
      · rename_i heq
        exact absurd (by simpa using congrArg (fun l => (l.headI, l.tail.headI)) heq) hab
      · have hlen : ¬(a :: b :: rest).length < 2 := by
          simp only [List.length_cons]
          omega
        rw [if_neg hlen]

theorem skip_ok_iff {buf start : List Nat} :
    skip_empty_lines buf = .ok start ↔
      ∃ n, buf = crlfs n ++ start ∧ 2 ≤ start.length ∧ start.take 2 ≠ [13, 10] := by
  constructor
  · induction buf using skip_empty_lines.induct with
    | case1 rest ih =>
      intro h
      rw [skip_empty_lines] at h
      obtain ⟨n, rfl, hlen, htake⟩ := ih h
      exact ⟨n + 1, by simp [crlfs, List.replicate_succ], hlen, htake⟩
    | case2 bytes hne hlen =>
      intro h
      rw [skip_empty_lines.eq_def] at h
      split at h
      · exact absurd rfl (hne _)
      · rw [if_pos hlen] at h
        exact absurd h (by simp)
    | case3 bytes hne hlen =>
      intro h
      rw [skip_empty_lines.eq_def] at h
      split at h
      · exact absurd rfl (hne _)
      · rw [if_neg hlen] at h
        obtain rfl : bytes = start := by
          simpa using h
        refine ⟨0, by simp [crlfs], by omega, ?_⟩
        intro htake
        match bytes, hlen, htake with
        | a :: b :: rest, _, htake =>
          obtain ⟨rfl, rfl⟩ : a = 13 ∧ b = 10 := by
            simpa using htake
          exact hne rest rfl
  · rintro ⟨n, rfl, hlen, htake⟩
    induction n with
    | zero =>
      simp only [crlfs, List.replicate_zero, List.flatten_nil, List.nil_append]
      rw [skip_empty_lines_eq, check_crlf_syntax_iff.mpr ⟨hlen, htake⟩]
    | succ n ih =>
      have hstep : crlfs (n + 1) ++ start = 13 :: 10 :: (crlfs n ++ start) := by
        simp [crlfs, List.replicate_succ]
      rw [hstep, skip_empty_lines]
      exact ih

theorem skip_append {p ext start : List Nat} (h : skip_empty_lines p = .ok start) :
    skip_empty_lines (p ++ ext) = .ok (start ++ ext) := by
  obtain ⟨n, rfl, hlen, htake⟩ := skip_ok_iff.mp h
  refine skip_ok_iff.mpr ⟨n, by simp, ?_, ?_⟩
  · simp only [List.length_append]
    omega
  · rw [List.take_append_of_le_length hlen]
    exact htake

/-! ## split_sp: shape, space-freeness, reconstruction -/

theorem split_sp_ne_nil (l : List Nat) : split_sp l ≠ [] := by
  match l with
  | [] => simp [split_sp]
  | b :: rest =>
    by_cases hb : b = 32
    · simp [split_sp, hb]
    · simp only [split_sp, if_neg hb]
      match split_sp rest with
      | [] => simp [cons_first]
      | f :: fs => simp [cons_first]

theorem split_sp_no_space (l : List Nat) : ∀ f ∈ split_sp l, 32 ∉ f := by
  induction l with
  | nil =>
    intro f hf
    simp [split_sp] at hf
    simp [hf]
  | cons b rest ih =>
    intro f hf
    by_cases hb : b = 32
    · simp only [split_sp, if_pos hb, List.mem_cons] at hf
      rcases hf with rfl | hf
      · simp
      · exact ih f hf
    · simp only [split_sp, if_neg hb] at hf
      match hsp : split_sp rest with
      | [] => exact absurd hsp (split_sp_ne_nil rest)
      | f0 :: fs =>
        rw [hsp] at hf
        simp only [cons_first, List.mem_cons] at hf
        rcases hf with rfl | hf
        · have h0 : 32 ∉ f0 := ih f0 (by rw [hsp]; exact List.mem_cons_self _ _)
          simp only [List.mem_cons, not_or]
          exact ⟨fun h => hb h.symm, h0⟩
        · exact ih f (by rw [hsp]; exact List.mem_cons_of_mem _ hf)

theorem join_sp_split_sp (l : List Nat) : join_sp (split_sp l) = l := by
  induction l with
  | nil => simp [split_sp, join_sp]
  | cons b rest ih =>
    by_cases hb : b = 32
    · subst hb
      simp only [split_sp, if_pos rfl]
      match hsp : split_sp rest with
      | [] => exact absurd hsp (split_sp_ne_nil rest)
      | f0 :: fs =>
        rw [hsp] at ih
        simp [join_sp, ih]
    · simp only [split_sp, if_neg hb]
      match hsp : split_sp rest with
      | [] => exact absurd hsp (split_sp_ne_nil rest)
      | f0 :: fs =>
        rw [hsp] at ih
        match fs with
        | [] =>
          simp only [join_sp] at ih
          simp [cons_first, join_sp, ih]
        | g :: fs' =>
          simp only [join_sp] at ih ⊢
          simp [cons_first, join_sp, ← ih]

theorem join_sp_three (m t v : List Nat) :
    join_sp [m, t, v] = m ++ 32 :: (t ++ 32 :: v) := by
  simp [join_sp]

/-! ## Headers.next step lemmas -/

theorem headers_next_err {s : List Nat} {e : Error} (h : next_line s = .error e) :
    Headers.next s = (some (.error e), s) := by
  simp [Headers.next, h]

theorem headers_next_located {s line rest : List Nat} (h : next_line s = .ok (line, rest)) :
    Headers.next s = if line = [] then (none, rest) else (some (parse_header line), rest) := by
  simp [Headers.next, h]

theorem headers_next_none_iff {s rest : List Nat} :
    Headers.next s = (none, rest) ↔ s = 13 :: 10 :: rest := by
  constructor
  · intro h
    unfold Headers.next at h
    split at h
    · simp at h
    · rename_i line r hline
      split at h
      · rename_i hl
        obtain rfl : r = rest := by
          simpa using h
        subst hl
        simpa using (next_line_ok_iff.mp hline).2
      · simp at h
  · intro h
    subst h
    have hnl : next_line (13 :: 10 :: rest) = .ok ([], rest) :=
      next_line_ok_iff.mpr ⟨by simp, by simp⟩
    simp [Headers.next, hnl]

theorem headers_next_yield {s rest : List Nat} {h : Header}
    (hh : Headers.next s = (some (.ok h), rest)) :
    ∃ line, line ≠ [] ∧ 13 ∉ line ∧ s = line ++ 13 :: 10 :: rest ∧
      parse_header line = .ok h := by
  unfold Headers.next at hh
  split at hh
  · simp at hh
  · rename_i line r hline
    split at hh
    · simp at hh
    · rename_i hlne
      obtain ⟨hp, rfl⟩ : parse_header line = .ok h ∧ r = rest := by
        simpa using hh
      obtain ⟨hnotin, rfl⟩ := next_line_ok_iff.mp hline
      exact ⟨line, hlne, hnotin, rfl, hp⟩

/-! ## run_headers reconstruction -/

theorem run_headers_ok {fuel : Nat} {s : List Nat} {hs : List Header} {fin : List Nat}
    (h : run_headers fuel s = some (.ok (hs, fin))) :
    ∃ lines : List (List Nat),
      s = (lines.map (fun l => l ++ [13, 10])).flatten ++ 13 :: 10 :: fin ∧
      lines.length = hs.length ∧
      List.Forall₂ (fun line hd => line ≠ [] ∧ 13 ∉ line ∧ parse_header line = .ok hd)
        lines hs := by
  induction fuel generalizing s hs with
  | zero => simp [run_headers] at h
  | succ fuel ih =>
    rw [run_headers] at h
    split at h
    · rename_i rest hnone
      obtain ⟨rfl, rfl⟩ : [] = hs ∧ rest = fin := by
        simpa using h
      exact ⟨[], by simpa using headers_next_none_iff.mp hnone, rfl, List.Forall₂.nil⟩
    · simp at h
    · rename_i hd rest hyld
      split at h
      · simp at h
      · simp at h
      · rename_i hs' fin' hrun
        obtain ⟨rfl, rfl⟩ : hd :: hs' = hs ∧ fin' = fin := by
          simpa using h
        obtain ⟨lines, rfl, hlen, hall⟩ := ih hrun
        obtain ⟨line, hne, hnotin, rfl, hp⟩ := headers_next_yield hyld
        exact ⟨line :: lines, by simp, by simp [hlen],
          List.Forall₂.cons ⟨hne, hnotin, hp⟩ hall⟩

/-! ## skip_fuel: the loop terminates within length / 2 + 1 iterations -/

theorem skip_fuel_spec (bytes : List Nat) :
    skip_fuel (bytes.length / 2 + 1) bytes = some (skip_empty_lines bytes) := by
  induction bytes using skip_empty_lines.induct with
  | case1 rest ih =>
    have hlen : (13 :: 10 :: rest).length / 2 + 1 = (rest.length / 2 + 1) + 1 := by
      simp only [List.length_cons]
      omega
    have hok : check_crlf (13 :: 10 :: rest) = .ok rest := check_crlf_ok_iff.mpr rfl
    rw [hlen, skip_fuel, hok, skip_empty_lines]
    exact ih
  | case2 bytes hne hlen =>
    have hpar : check_crlf bytes = .error .Partial := check_crlf_partial_iff.mpr hlen
    have hskip : skip_empty_lines bytes = .error .Partial := by
      rw [skip_empty_lines_eq, hpar]
    have h1 : bytes.length / 2 + 1 = 0 + 1 := by
      omega
    rw [h1, skip_fuel, hpar, hskip]
  | case3 bytes hne hlen =>
    have hsyn : check_crlf bytes = .error .Syntax := by
      rw [check_crlf_syntax_iff]
      refine ⟨by omega, ?_⟩
      intro htake
      match bytes, hlen, htake with
      | a :: b :: rest, _, htake =>
        obtain ⟨rfl, rfl⟩ : a = 13 ∧ b = 10 := by
          simpa using htake
        exact hne rest rfl
    have hskip : skip_empty_lines bytes = .ok bytes := by
      rw [skip_empty_lines_eq, hsyn]
    obtain ⟨fuel, hf⟩ : ∃ f, bytes.length / 2 + 1 = f + 1 := ⟨_, rfl⟩
    rw [hf, skip_fuel, hsyn, hskip]

/-! ## request_fields: result is determined by the line alone -/

theorem request_fields_error {line r r' : List Nat} {e : Error}
    (h : request_fields line r = .error e) : request_fields line r' = .error e := by
  cases hdec : utf8Decode line with
  | none =>
    simp only [request_fields, hdec] at h ⊢
    exact h
  | some cs =>
    match hsp : split_sp line with
    | [] =>
      simp only [request_fields, hdec, hsp] at h ⊢
      exact h
    | [a] =>
      simp only [request_fields, hdec, hsp] at h ⊢
      exact h
    | [a, b] =>
      simp only [request_fields, hdec, hsp] at h ⊢
      exact h
    | [a, b, c] =>
      simp [request_fields, hdec, hsp] at h
    | a :: b :: c :: d :: fs =>
      simp only [request_fields, hdec, hsp] at h ⊢
      exact h

theorem request_fields_ok {line r : List Nat} {rl : RequestLine} {r2 : List Nat}
    (h : request_fields line r = .ok (rl, r2)) :
    r2 = r ∧ (∃ cs, utf8Decode line = some cs) ∧
      split_sp line = [rl.method, rl.target, rl.version] := by
  cases hdec : utf8Decode line with
  | none => simp [request_fields, hdec] at h
  | some cs =>
    match hsp : split_sp line with
    | [] => simp [request_fields, hdec, hsp] at h
    | [a] => simp [request_fields, hdec, hsp] at h
    | [a, b] => simp [request_fields, hdec, hsp] at h
    | [a, b, c] =>
      simp only [request_fields, hdec, hsp] at h
      obtain ⟨rfl, rfl⟩ : (⟨a, b, c⟩ : RequestLine) = rl ∧ r = r2 := by
        simpa using h
      exact ⟨rfl, ⟨cs, rfl⟩, by simp [hsp]⟩
    | a :: b :: c :: d :: fs => simp [request_fields, hdec, hsp] at h

theorem request_fields_build {line r : List Nat} {cs : List Nat} {m t v : List Nat}
    (hdec : utf8Decode line = some cs) (hsp : split_sp line = [m, t, v]) :
    request_fields line r = .ok (⟨m, t, v⟩, r) := by
  simp [request_fields, hdec, hsp]

/-! ## RequestLine.new: decomposition, reconstruction, Syntax stability -/

theorem skip_never_syn (p : List Nat) : skip_empty_lines p ≠ .error .Syntax := by
  induction p using skip_empty_lines.induct with
  | case1 rest ih =>
    rw [skip_empty_lines]
    exact ih
  | case2 bytes hne hlen =>
    rw [skip_empty_lines.eq_def]
    split
    · exact absurd rfl (hne _)
    · rw [if_pos hlen]
      simp
  | case3 bytes hne hlen =>
    rw [skip_empty_lines.eq_def]
    split
    · exact absurd rfl (hne _)
    · rw [if_neg hlen]
      simp

theorem requestline_new_ok_decomp {buf : List Nat} {rl : RequestLine} {rest : List Nat}
    (h : RequestLine.new buf = .ok (rl, rest)) :
    ∃ n line, 13 ∉ line ∧ line ≠ [] ∧
      buf = crlfs n ++ (line ++ 13 :: 10 :: rest) ∧
      (∃ cs, utf8Decode line = some cs) ∧
      split_sp line = [rl.method, rl.target, rl.version] := by
  unfold RequestLine.new at h
  split at h
  · simp at h
  · rename_i start hs
    split at h
    · simp at h
    · rename_i line r hn
      obtain ⟨rfl, hdec, hsp⟩ := request_fields_ok h
      obtain ⟨hnotin, rfl⟩ := next_line_ok_iff.mp hn
      obtain ⟨n, rfl, -, -⟩ := skip_ok_iff.mp hs
      refine ⟨n, line, hnotin, ?_, rfl, hdec, hsp⟩
      intro hl
      subst hl
      simp [split_sp] at hsp

theorem requestline_new_build {n : Nat} {line rest cs m t v : List Nat}
    (hnotin : 13 ∉ line) (hne : line ≠ [])
    (hdec : utf8Decode line = some cs) (hsp : split_sp line = [m, t, v]) :
    RequestLine.new (crlfs n ++ (line ++ 13 :: 10 :: rest)) = .ok (⟨m, t, v⟩, rest) := by
  have hlen2 : 2 ≤ (line ++ 13 :: 10 :: rest).length := by
    simp only [List.length_append, List.length_cons]
    omega
  have htake : (line ++ 13 :: 10 :: rest).take 2 ≠ [13, 10] := by
    match line, hne with
    | b :: l', _ =>
      intro htk
      have hb : b = 13 := by
        simpa using congrArg (fun l => l.headI) htk
      subst hb
      exact hnotin (List.mem_cons_self _ _)
  have hstart : skip_empty_lines (crlfs n ++ (line ++ 13 :: 10 :: rest)) =
      .ok (line ++ 13 :: 10 :: rest) :=
    skip_ok_iff.mpr ⟨n, rfl, hlen2, htake⟩
  have hnl : next_line (line ++ 13 :: 10 :: rest) = .ok (line, rest) :=
    next_line_ok_iff.mpr ⟨hnotin, rfl⟩
  simp [RequestLine.new, hstart, hnl, request_fields_build hdec hsp]

theorem next_line_syntax_append {p : List Nat} (h : next_line p = .error .Syntax)
    (ext : List Nat) : next_line (p ++ ext) = .error .Syntax := by
  unfold next_line at h
  split at h
  · simp at h
  · rename_i idx hidx
    split at h
    · simp at h
    · rename_i e he
      obtain rfl : e = Error.Syntax := by
        simpa using h
      obtain ⟨hlen, htake⟩ := check_crlf_syntax_iff.mp he
      have hidx2 : memchr 13 (p ++ ext) = some idx := memchr_append_left hidx ext
      have hide : idx ≤ p.length := by
        obtain ⟨pre, tail, rfl, rfl, -⟩ := memchr_some hidx
        simp only [List.length_append, List.length_cons]
        omega
      have hdrop : (p ++ ext).drop idx = p.drop idx ++ ext :=
        List.drop_append_of_le_length hide
      have hsyn2 : check_crlf ((p ++ ext).drop idx) = .error .Syntax := by
        rw [hdrop, check_crlf_syntax_iff]
        constructor
        · simp only [List.length_append]
          omega
        · rw [List.take_append_of_le_length hlen]
          exact htake
      simp [next_line, hidx2, hsyn2]

theorem requestline_syntax_append {p : List Nat} (h : RequestLine.new p = .error .Syntax)
    (ext : List Nat) : RequestLine.new (p ++ ext) = .error .Syntax := by
  unfold RequestLine.new at h
  split at h
  · rename_i e hskip
    obtain rfl : e = Error.Syntax := by
      simpa using h
    exact absurd hskip (skip_never_syn p)
  · rename_i start hskip
    have hskip2 : skip_empty_lines (p ++ ext) = .ok (start ++ ext) := skip_append hskip
    split at h
    · rename_i e hnl
      obtain rfl : e = Error.Syntax := by
        simpa using h
      have hnl2 := next_line_syntax_append hnl ext
      simp [RequestLine.new, hskip2, hnl2]
    · rename_i line r hnl
      obtain ⟨hnotin, rfl⟩ := next_line_ok_iff.mp hnl
      have hnl2 : next_line (line ++ 13 :: 10 :: (r ++ ext)) = .ok (line, r ++ ext) :=
        next_line_ok_iff.mpr ⟨hnotin, rfl⟩
      have hrf : request_fields line (r ++ ext) = .error .Syntax := request_fields_error h
      simp [RequestLine.new, hskip2, hnl2, hrf]

/-!
## Claim theorems
-/

/-- C1 counterexample: on the buffer CRLF ++ body, the first advance reports
end-of-headers and leaves the cursor at the body; but the very next advance
does not report "no more items": it re-parses the body as a header block and
yields an error (Partial here), so the None state is not terminal. -/
theorem C1_cex :
    Headers.next [13, 10, 98, 111, 100, 121] = (none, [98, 111, 100, 121]) ∧
    Headers.next [98, 111, 100, 121] =
      (some (.error .Partial), [98, 111, 100, 121]) := by
  decide

/-- C1 (amended): the Headers iterator reports end-of-headers exactly when the
cursor begins with a bare CRLF (the terminating empty line); that call consumes
the CRLF and the cursor then holds precisely the body prefix.  The iterator
keeps no further state, so a subsequent advance simply runs on the body prefix
as a fresh header block (it is not fused and need not keep returning none). -/
theorem C1_terminal (s rest : List Nat) :
    Headers.next s = (none, rest) ↔ s = 13 :: 10 :: rest :=
  headers_next_none_iff

/-- C2 counterexample: on the bytes of the line GET-space-slash-space followed
by CRLF, RequestLine.new succeeds with an empty version field, so the returned
fields are not all non-empty as claimed. -/
theorem C2_cex :
    RequestLine.new [71, 69, 84, 32, 47, 32, 13, 10] =
      .ok (⟨[71, 69, 84], [47], []⟩, []) ∧
    (RequestLine.mk [71, 69, 84] [47] []).version = [] := by
  decide

/-- C2 (amended): whenever RequestLine.new succeeds, each of the three returned
fields is free of the space character (but a field may be empty); and whenever
the located initial line splits into fewer than three space-separated fields
(including the all-empty case of an empty line), RequestLine.new fails with
Syntax. -/
theorem C2_fields (buf : List Nat) :
    (∀ rl rest, RequestLine.new buf = .ok (rl, rest) →
      32 ∉ rl.method ∧ 32 ∉ rl.target ∧ 32 ∉ rl.version) ∧
    (∀ start line rest, skip_empty_lines buf = .ok start →
      next_line start = .ok (line, rest) → (split_sp line).length < 3 →
      RequestLine.new buf = .error .Syntax) := by
  constructor
  · intro rl rest h
    obtain ⟨n, line, -, -, -, -, hsp⟩ := requestline_new_ok_decomp h
    have hm := split_sp_no_space line
    rw [hsp] at hm
    exact ⟨hm _ (by simp), hm _ (by simp), hm _ (by simp)⟩
  · intro start line rest hs hn hlen
    have hred : RequestLine.new buf = request_fields line rest := by
      simp [RequestLine.new, hs, hn]
    rw [hred]
    cases hdec : utf8Decode line with
    | none => simp [request_fields, hdec]
    | some cs =>
      match hsp : split_sp line with
      | [] => simp [request_fields, hdec, hsp]
      | [a] => simp [request_fields, hdec, hsp]
      | [a, b] => simp [request_fields, hdec, hsp]
      | [a, b, c] =>
        rw [hsp] at hlen
        simp at hlen
      | a :: b :: c :: d :: fs => simp [request_fields, hdec, hsp]

/-- C2 witness: the amended theorem applied to concrete requests: a successful
parse of GET / HTTP/1.1 gives space-free fields, and the two-field line GET /
fails with Syntax. -/
theorem C2_witness :
    (32 ∉ ([71, 69, 84] : List Nat) ∧ 32 ∉ ([47] : List Nat) ∧
      32 ∉ ([72, 84, 84, 80, 47, 49, 46, 49] : List Nat)) ∧
    RequestLine.new [71, 69, 84, 32, 47, 13, 10] = .error .Syntax := by
  constructor
  · exact (C2_fields [71, 69, 84, 32, 47, 32, 72, 84, 84, 80, 47, 49, 46, 49, 13, 10]).1
      ⟨[71, 69, 84], [47], [72, 84, 84, 80, 47, 49, 46, 49]⟩ [] (by decide)
  · exact (C2_fields [71, 69, 84, 32, 47, 13, 10]).2 [71, 69, 84, 32, 47, 13, 10]
      [71, 69, 84, 32, 47] [] (by decide) (by decide) (by decide)

/-- C3: the line-location operation next_line fails Partial when the buffer
contains no carriage return at all (hence LF-only input is never accepted);
when the first carriage return has been located (bytes = pre ++ CR :: post with
pre CR-free), it fails Partial when nothing follows the CR, fails Syntax when
the following byte is not LF, and otherwise returns the bytes before the CR as
the line and the bytes after the CRLF as the rest. -/
theorem C3_next_line (bytes pre post : List Nat) :
    (13 ∉ bytes → next_line bytes = .error .Partial) ∧
    (bytes = pre ++ 13 :: post → 13 ∉ pre →
      (post = [] → next_line bytes = .error .Partial) ∧
      (∀ b tail, post = b :: tail → b ≠ 10 → next_line bytes = .error .Syntax) ∧
      (∀ tail, post = 10 :: tail → next_line bytes = .ok (pre, tail))) := by
  constructor
  · intro h
    have hm : memchr 13 bytes = none := memchr_eq_none.mpr h
    simp [next_line, hm]
  · rintro rfl hpre
    have hm : memchr 13 (pre ++ 13 :: post) = some pre.length :=
      memchr_not_mem_append hpre post
    have hdrop : (pre ++ 13 :: post).drop pre.length = 13 :: post := List.drop_left _ _
    have htake : (pre ++ 13 :: post).take pre.length = pre := List.take_left _ _
    refine ⟨?_, ?_, ?_⟩
    · rintro rfl
      have hc : check_crlf [13] = .error .Partial := by decide
      simp [next_line, hm, hdrop, hc]
    · rintro b tail rfl hb
      have hc : check_crlf (13 :: b :: tail) = .error .Syntax := by
        rw [check_crlf_syntax_iff]
        refine ⟨by simp, ?_⟩
        intro ht
        apply hb
        simpa using congrArg (fun l => l.tail.headI) ht
      simp [next_line, hm, hdrop, hc]
    · rintro tail rfl
      have hc : check_crlf (13 :: 10 :: tail) = .ok tail := check_crlf_ok_iff.mpr rfl
      simp [next_line, hm, hdrop, hc, htake]

/-- C3 witness: the theorem applied to the LF-only request of the specification
(no carriage return, hence Partial) and to small lines exercising the
too-short, CR-without-LF, and CRLF branches. -/
theorem C3_witness :
    next_line [71, 69, 84, 32, 47, 32, 72, 84, 84, 80, 47, 49, 46, 49, 10, 72,
      111, 115, 116, 58, 32, 120, 10, 10] = .error .Partial ∧
    next_line [97, 13] = .error .Partial ∧
    next_line [97, 13, 120, 98] = .error .Syntax ∧
    next_line [97, 13, 10, 98] = .ok ([97], [98]) := by
  refine ⟨?_, ?_, ?_, ?_⟩
  · exact (C3_next_line [71, 69, 84, 32, 47, 32, 72, 84, 84, 80, 47, 49, 46, 49,
      10, 72, 111, 115, 116, 58, 32, 120, 10, 10] [] []).1 (by decide)
  · exact ((C3_next_line [97, 13] [97] []).2 (by decide) (by decide)).1 rfl
  · exact (((C3_next_line [97, 13, 120, 98] [97] [120, 98]).2 (by decide)
      (by decide)).2).1 120 [98] rfl (by decide)
  · exact (((C3_next_line [97, 13, 10, 98] [97] [10, 98]).2 (by decide)
      (by decide)).2).2 [98] rfl

/-- C4 counterexample: the header line whose pre-colon part is the two-byte
UTF-8 encoding of the no-break space U+00A0.  Its ASCII-whitespace trim is
non-empty, so under the claim the iterator would yield a header named by those
bytes; but the code trims per the Unicode White_Space property, obtains an
empty name, and reports Syntax. -/
theorem C4_cex :
    Headers.next [194, 160, 58, 118, 13, 10] = (some (.error .Syntax), []) ∧
    trimAsciiSpec [194, 160] ≠ [] := by
  decide

/-- C4 (amended): for every non-empty header line yielded by Headers.next, the
line is split at its first colon (absence of a colon is Syntax); the name is
the pre-colon part interpreted as UTF-8 (invalid UTF-8 is Syntax) with
surrounding Unicode whitespace trimmed (the White_Space property, as the Rust
str trim used by the code, not merely ASCII whitespace), and an empty name
after trimming is Syntax; the val is exactly the bytes after the first colon,
untrimmed and verbatim. -/
theorem C4_header_line (s line rest : List Nat) :
    next_line s = .ok (line, rest) → line ≠ [] →
    (memchr 58 line = none → Headers.next s = (some (.error .Syntax), rest)) ∧
    (∀ idx, memchr 58 line = some idx →
      (utf8Decode (line.take idx) = none →
        Headers.next s = (some (.error .Syntax), rest)) ∧
      (∀ cs, utf8Decode (line.take idx) = some cs →
        (utf8Encode (trimChars cs) = [] →
          Headers.next s = (some (.error .Syntax), rest)) ∧
        (utf8Encode (trimChars cs) ≠ [] →
          Headers.next s =
            (some (.ok ⟨utf8Encode (trimChars cs), line.drop (idx + 1)⟩), rest)))) := by
  intro hnl hne
  have hH : Headers.next s = (some (parse_header line), rest) := by
    rw [headers_next_located hnl, if_neg hne]
  refine ⟨?_, ?_⟩
  · intro hm
    rw [hH]
    simp [parse_header, hm]
  · intro idx hm
    refine ⟨?_, ?_⟩
    · intro hdec
      rw [hH]
      simp [parse_header, hm, hdec]
    · intro cs hdec
      have hdd : (line.drop idx).drop 1 = line.drop (idx + 1) := by
        rw [List.drop_drop]
      refine ⟨?_, ?_⟩
      · intro htr
        rw [hH]
        simp [parse_header, hm, hdec, htr]
      · intro htr
        rw [hH]
        simp [parse_header, hm, hdec, if_neg htr, hdd]

/-- C4 witness: the amended theorem applied to the line A:B (yielding name A
and verbatim value B) and to a line with no colon (Syntax). -/
theorem C4_witness :
    Headers.next [65, 58, 66, 13, 10] =
      (some (.ok ⟨utf8Encode (trimChars [65]),
        ([65, 58, 66] : List Nat).drop (1 + 1)⟩), []) ∧
    Headers.next [120, 13, 10] = (some (.error .Syntax), []) := by
  constructor
  · exact ((((C4_header_line [65, 58, 66, 13, 10] [65, 58, 66] [] (by decide)
      (by decide)).2) 1 (by decide)).2 [65] (by decide)).2 (by decide)
  · exact (C4_header_line [120, 13, 10] [120] [] (by decide) (by decide)).1 (by decide)

/-- C5: prefix monotonicity.  A Syntax failure on a prefix is never turned into
success by more bytes (for next_line and for RequestLine.new); and when a
prefix is Partial while the extended buffer completes the structural unit, the
extended parse agrees with parsing the complete unit directly: for next_line
the same line parses from just line ++ CRLF, and for RequestLine.new the
consumed unit u parses on its own to the same RequestLine with empty rest. -/
theorem C5_prefix_monotone (p ext : List Nat) :
    (next_line p = .error .Syntax →
      ∀ line rest, next_line (p ++ ext) ≠ .ok (line, rest)) ∧
    (RequestLine.new p = .error .Syntax →
      ∀ rl rest, RequestLine.new (p ++ ext) ≠ .ok (rl, rest)) ∧
    (∀ line rest, next_line p = .error .Partial →
      next_line (p ++ ext) = .ok (line, rest) →
      next_line (line ++ [13, 10]) = .ok (line, []) ∧
      p ++ ext = line ++ 13 :: 10 :: rest) ∧
    (∀ rl rest, RequestLine.new p = .error .Partial →
      RequestLine.new (p ++ ext) = .ok (rl, rest) →
      ∃ u, p ++ ext = u ++ rest ∧ RequestLine.new u = .ok (rl, [])) := by
  refine ⟨?_, ?_, ?_, ?_⟩
  · intro h line rest hok
    rw [next_line_syntax_append h ext] at hok
    exact absurd hok (by simp)
  · intro h rl rest hok
    rw [requestline_syntax_append h ext] at hok
    exact absurd hok (by simp)
  · intro line rest hpar hok
    obtain ⟨hnotin, heq⟩ := next_line_ok_iff.mp hok
    exact ⟨next_line_ok_iff.mpr ⟨hnotin, by simp⟩, heq⟩
  · intro rl rest hpar hok
    obtain ⟨m, t, v⟩ := rl
    obtain ⟨n, line, hnotin, hne, heq, ⟨cs, hcs⟩, hsp⟩ := requestline_new_ok_decomp hok
    refine ⟨crlfs n ++ (line ++ [13, 10]), ?_, ?_⟩
    · rw [heq]
      simp
    · exact requestline_new_build hnotin hne hcs hsp

/-- C5 witness: the theorem applied to concrete prefixes: a CR-not-LF Syntax
prefix stays failed under extension; a one-field Syntax request stays failed; a
Partial line completes to the same line; a Partial request line completes to
the same RequestLine parsed from the consumed unit alone. -/
theorem C5_witness :
    (next_line ([97, 13, 120] ++ [13, 10]) ≠ .ok ([97], [])) ∧
    (RequestLine.new ([71, 69, 84, 13, 10] ++ [120]) ≠
      .ok (⟨[71], [69], [84]⟩, [])) ∧
    (next_line (([97, 98, 99] : List Nat) ++ [13, 10]) = .ok ([97, 98, 99], []) ∧
      ([97, 98, 99] : List Nat) ++ [13, 10, 100] = [97, 98, 99] ++ 13 :: 10 :: [100]) ∧
    (∃ u, ([71, 69, 84, 32, 47, 32, 72, 84, 84, 80, 47, 49, 46, 49] : List Nat)
        ++ [13, 10, 13, 10] = u ++ [13, 10] ∧
      RequestLine.new u =
        .ok (⟨[71, 69, 84], [47], [72, 84, 84, 80, 47, 49, 46, 49]⟩, [])) := by
  refine ⟨?_, ?_, ?_, ?_⟩
  · exact (C5_prefix_monotone [97, 13, 120] [13, 10]).1 (by decide) [97] []
  · exact (C5_prefix_monotone [71, 69, 84, 13, 10] [120]).2.1 (by decide)
      ⟨[71], [69], [84]⟩ []
  · exact (C5_prefix_monotone [97, 98, 99] [13, 10, 100]).2.2.1 [97, 98, 99] [100]
      (by decide) (by decide)
  · exact (C5_prefix_monotone [71, 69, 84, 32, 47, 32, 72, 84, 84, 80, 47, 49, 46, 49]
      [13, 10, 13, 10]).2.2.2 ⟨[71, 69, 84], [47], [72, 84, 84, 80, 47, 49, 46, 49]⟩
      [13, 10] (by decide) (by decide)

/-- C6: lossless reconstruction.  A successful next_line splits the input as
line ++ CRLF ++ rest; a successful RequestLine.new splits the input as skipped
CRLFs ++ the request line (its three fields rejoined with single spaces) ++
CRLF ++ rest; a completed header iteration splits the starting buffer as the
consumed raw header lines, one per yielded header in order (each line
non-empty, CR-free, and parsed by the per-line step into exactly that header),
each with its CRLF, then the terminating empty line CRLF, then the final
remainder. -/
theorem C6_reconstruction :
    (∀ bytes line rest : List Nat, next_line bytes = .ok (line, rest) →
      bytes = line ++ 13 :: 10 :: rest) ∧
    (∀ (buf rest : List Nat) (rl : RequestLine), RequestLine.new buf = .ok (rl, rest) →
      ∃ n line, buf = crlfs n ++ (line ++ 13 :: 10 :: rest) ∧
        line = rl.method ++ 32 :: (rl.target ++ 32 :: rl.version)) ∧
    (∀ (fuel : Nat) (s fin : List Nat) (hs : List Header),
      run_headers fuel s = some (.ok (hs, fin)) →
      ∃ lines : List (List Nat),
        s = (lines.map (fun l => l ++ [13, 10])).flatten ++ 13 :: 10 :: fin ∧
        lines.length = hs.length ∧
        List.Forall₂ (fun line hd => line ≠ [] ∧ 13 ∉ line ∧ parse_header line = .ok hd)
          lines hs) := by
  refine ⟨?_, ?_, ?_⟩
  · intro bytes line rest h
    exact (next_line_ok_iff.mp h).2
  · intro buf rest rl h
    obtain ⟨n, line, -, -, heq, -, hsp⟩ := requestline_new_ok_decomp h
    refine ⟨n, line, heq, ?_⟩
    have hj := join_sp_split_sp line
    rw [hsp, join_sp_three] at hj
    exact hj.symm
  · intro fuel s fin hs h
    exact run_headers_ok h

/-- C6 witness: the reconstruction equations at a concrete line, a concrete
request line with CRLF remainder, and a two-advance header iteration. -/
theorem C6_witness :
    ([97, 13, 10, 98] : List Nat) = [97] ++ 13 :: 10 :: [98] ∧
    (∃ n line,
      ([71, 69, 84, 32, 47, 32, 72, 84, 84, 80, 47, 49, 46, 49, 13, 10, 13, 10] :
          List Nat) = crlfs n ++ (line ++ 13 :: 10 :: [13, 10]) ∧
      line = [71, 69, 84] ++ 32 :: ([47] ++ 32 :: [72, 84, 84, 80, 47, 49, 46, 49])) ∧
    (∃ lines : List (List Nat),
      ([65, 58, 32, 66, 13, 10, 13, 10, 120, 121] : List Nat) =
        (lines.map (fun l => l ++ [13, 10])).flatten ++ 13 :: 10 :: [120, 121] ∧
      lines.length = ([⟨[65], [32, 66]⟩] : List Header).length ∧
      List.Forall₂ (fun line hd => line ≠ [] ∧ 13 ∉ line ∧ parse_header line = .ok hd)
        lines [⟨[65], [32, 66]⟩]) := by
  refine ⟨?_, ?_, ?_⟩
  · exact C6_reconstruction.1 [97, 13, 10, 98] [97] [98] (by decide)
  · exact C6_reconstruction.2.1
      [71, 69, 84, 32, 47, 32, 72, 84, 84, 80, 47, 49, 46, 49, 13, 10, 13, 10] [13, 10]
      ⟨[71, 69, 84], [47], [72, 84, 84, 80, 47, 49, 46, 49]⟩ (by decide)
  · exact C6_reconstruction.2.2 3 [65, 58, 32, 66, 13, 10, 13, 10, 120, 121]
      [120, 121] [⟨[65], [32, 66]⟩] (by decide)

/-- C7: when the line-location step fails, the advance yields that error and
the cursor (as returned by into_inner) is unchanged; when the line is located
successfully the cursor advances past that line terminating CRLF regardless of
anything the later per-line checks do. -/
theorem C7_cursor (s : List Nat) :
    (∀ e, next_line s = .error e →
      Headers.next s = (some (.error e), s) ∧
      Headers.into_inner (Headers.next s).2 = Headers.into_inner s) ∧
    (∀ line rest, next_line s = .ok (line, rest) →
      (Headers.next s).2 = rest ∧ s = line ++ 13 :: 10 :: rest) := by
  constructor
  · intro e h
    refine ⟨headers_next_err h, ?_⟩
    rw [headers_next_err h]
  · intro line rest h
    refine ⟨?_, (next_line_ok_iff.mp h).2⟩
    rw [headers_next_located h]
    split <;> rfl

/-- C7 witness: a Partial advance leaves the cursor unchanged; a successful
location advances the cursor past the CRLF even though the line parses fine or
not. -/
theorem C7_witness :
    (Headers.next [120] = (some (.error .Partial), [120]) ∧
      Headers.into_inner (Headers.next [120]).2 = Headers.into_inner [120]) ∧
    ((Headers.next [97, 58, 98, 13, 10, 99]).2 = [99] ∧
      ([97, 58, 98, 13, 10, 99] : List Nat) = [97, 58, 98] ++ 13 :: 10 :: [99]) :=
  ⟨(C7_cursor [120]).1 .Partial (by decide),
    (C7_cursor [97, 58, 98, 13, 10, 99]).2 [97, 58, 98] [99] (by decide)⟩

/-- C8: the three field-count examples of the specification: GET / HTTP/1.1
parses with remainder CRLF; the two-field GET / fails Syntax; the trailing
space producing a fourth empty field fails Syntax. -/
theorem C8_examples :
    RequestLine.new [71, 69, 84, 32, 47, 32, 72, 84, 84, 80, 47, 49, 46, 49, 13,
        10, 13, 10] =
      .ok (⟨[71, 69, 84], [47], [72, 84, 84, 80, 47, 49, 46, 49]⟩, [13, 10]) ∧
    RequestLine.new [71, 69, 84, 32, 47, 13, 10] = .error .Syntax ∧
    RequestLine.new [71, 69, 84, 32, 47, 32, 72, 84, 84, 80, 47, 49, 46, 49, 32,
      13, 10] = .error .Syntax := by
  decide

/-- C9: the colon located by memchr always lies strictly inside the line, so
the post-split value part is non-empty, begins with the colon byte, and
dropping that one byte is exactly the bytes after the first colon: the val
slice-index operation of the iterator is always in bounds. -/
theorem C9_colon_split (line : List Nat) (idx : Nat) :
    memchr 58 line = some idx →
      idx < line.length ∧ line.drop idx ≠ [] ∧ (line.drop idx).take 1 = [58] ∧
      (line.drop idx).drop 1 = line.drop (idx + 1) := by
  intro h
  obtain ⟨pre, tail, rfl, rfl, -⟩ := memchr_some h
  refine ⟨?_, ?_, ?_, ?_⟩
  · simp only [List.length_append, List.length_cons]
    omega
  · rw [List.drop_left]
    simp
  · rw [List.drop_left]
    rfl
  · rw [List.drop_drop]

/-- C9 witness: the colon-bound facts at the line a colon b. -/
theorem C9_witness :
    1 < ([97, 58, 98] : List Nat).length ∧ ([97, 58, 98] : List Nat).drop 1 ≠ [] ∧
    (([97, 58, 98] : List Nat).drop 1).take 1 = [58] ∧
    (([97, 58, 98] : List Nat).drop 1).drop 1 = ([97, 58, 98] : List Nat).drop (1 + 1) :=
  C9_colon_split [97, 58, 98] 1 (by decide)

/-- C10: each iteration of the skip_empty_lines loop consumes exactly two bytes
(one CRLF), and the loop completes within length / 2 + 1 iterations: running
the fuel-indexed loop with that much fuel never exhausts the fuel and returns
exactly the result of skip_empty_lines. -/
theorem C10_skip_terminates (bytes : List Nat) :
    (∀ rest, check_crlf bytes = .ok rest → rest.length + 2 = bytes.length) ∧
    skip_fuel (bytes.length / 2 + 1) bytes = some (skip_empty_lines bytes) := by
  refine ⟨?_, skip_fuel_spec bytes⟩
  intro rest h
  obtain rfl := check_crlf_ok_iff.mp h
  simp only [List.length_cons]

/-- C10 witness: the step shrink and the fuel bound at the buffer CRLF ++ G. -/
theorem C10_witness :
    ([65] : List Nat).length + 2 = ([13, 10, 65] : List Nat).length ∧
    skip_fuel (([13, 10, 65] : List Nat).length / 2 + 1) [13, 10, 65] =
      some (skip_empty_lines [13, 10, 65]) :=
  ⟨(C10_skip_terminates [13, 10, 65]).1 [65] (by decide),
    (C10_skip_terminates [13, 10, 65]).2⟩
